import Mathlib

/-!
Verification of the core of a small text-search engine: an inverted index
with compression and incremental maintenance (`partie1_corpus_et_index.py`,
`partie2_compression_maintenance.py`) and three ranking models
(`modele_vectoriel.py`, `modele_probabiliste.py`, `modele_langue.py`).

Python dictionaries are modelled as a key `Finset` together with a total
value function; reads go through getters that reproduce `defaultdict` /
`dict.get` semantics.  Machine floats are modelled as exact `ℚ`/`ℝ`
arithmetic, with `Real.logb 10` for `math.log10`.  Operations that can raise
`KeyError` are modelled in `Except Unit`.
-/

/-! ## Compression (`CompressedIndex`, partie2_compression_maintenance.py) -/

/-- Embedding of `CompressedIndex.compress_gap_encoding`: sort the ids, keep
the first verbatim, then store consecutive differences. -/
def compress_gap_encoding (doc_ids : List ℕ) : List ℕ :=
  if doc_ids = [] then []
  else
    match doc_ids.insertionSort (· ≤ ·) with
    | [] => []
    | h :: t => h :: List.zipWith (fun a b => b - a) (h :: t) t

/-- Embedding of `CompressedIndex.decompress_gap_encoding`: the first element
is kept and each later element is added to the running value (cumulative sum,
`doc_ids[i] = doc_ids[i-1] + gaps[i]`). -/
def decompress_gap_encoding (gaps : List ℕ) : List ℕ :=
  match gaps with
  | [] => []
  | g :: gs => List.scanl (· + ·) g gs

/-- Embedding of `CompressedIndex.compress_variable_byte`: while `n ≥ 128`
emit the low 7 bits with the continuation bit set (`(n % 128) | 128`) and
shift right by 7 (`n //= 128`); finally emit `n % 128`.  Bytes are listed in
emission order (low-order group first), as in the Python list. -/
def compress_variable_byte (number : ℕ) : List ℕ :=
  if h : 128 ≤ number then
    ((number % 128) ||| 128) :: compress_variable_byte (number / 128)
  else
    [number % 128]
termination_by number
decreasing_by
  exact Nat.div_lt_self (Nat.lt_of_lt_of_le (by norm_num) h) (by norm_num)

/-- Loop of `CompressedIndex.decompress_variable_byte`: accumulate
`(byte & 127) << shift` and stop at the first byte with continuation bit 0. -/
def decompress_vb_go (number shift : ℕ) : List ℕ → ℕ
  | [] => number
  | b :: rest =>
    if b < 128 then number + (b &&& 127) <<< shift
    else decompress_vb_go (number + (b &&& 127) <<< shift) (shift + 7) rest

/-- Embedding of `CompressedIndex.decompress_variable_byte`. -/
def decompress_variable_byte (byte_data : List ℕ) : ℕ :=
  decompress_vb_go 0 0 byte_data

/-! ## Inverted index (`InvertedIndex`, partie1_corpus_et_index.py) -/

/-- State of an `InvertedIndex` instance.  A Python dict is a key set plus a
value function (values at absent keys are irrelevant junk; all reads go
through `postGet` / `dfGet`).  `isDefault` records whether `self.index` is a
`defaultdict(set)` (as created by `__init__`) or a plain `dict` (as installed
by `load_index`); a plain dict raises `KeyError` on a missing key. -/
structure InvIndex where
  keys : Finset String
  post : String → Finset ℕ
  dfKeys : Finset String
  df : String → ℤ
  isDefault : Bool

/-- Read of `self.index[t]` with `defaultdict(set)` semantics (also the body
of `get_posting_list`, which uses `self.index.get(term, set())`). -/
def postGet (m : InvIndex) (t : String) : Finset ℕ :=
  if t ∈ m.keys then m.post t else ∅

/-- Read of `self.doc_freq.get(t, 0)`. -/
def dfGet (m : InvIndex) (t : String) : ℤ :=
  if t ∈ m.dfKeys then m.df t else 0

/-- Fresh index produced by `InvertedIndex.__init__` (defaultdict-backed). -/
def emptyIndex : InvIndex :=
  { keys := ∅, post := fun _ => ∅, dfKeys := ∅, df := fun _ => 0, isDefault := true }

/-- One iteration of the per-token loop shared by `build_index` and
`IndexMaintenance.add_document`:
`self.index[token].add(doc_id)` followed by
`self.doc_freq[token] = self.doc_freq.get(token, 0) + 1`.
With a plain dict (after `load_index`) the first statement raises `KeyError`
when the token is absent. -/
def addToken (doc_id : ℕ) (m : InvIndex) (t : String) : Except Unit InvIndex :=
  if m.isDefault = false ∧ t ∉ m.keys then .error ()
  else .ok
    { keys := insert t m.keys
      post := Function.update m.post t (insert doc_id (postGet m t))
      dfKeys := insert t m.dfKeys
      df := Function.update m.df t (dfGet m t + 1)
      isDefault := m.isDefault }

/-- Sequential per-token loop of `add_document` / `build_index`; a raised
`KeyError` aborts the remaining iterations. -/
def addTokens (doc_id : ℕ) (m : InvIndex) : List String → Except Unit InvIndex
  | [] => .ok m
  | t :: ts =>
    match addToken doc_id m t with
    | .error e => .error e
    | .ok m₁ => addTokens doc_id m₁ ts

/-- Embedding of `IndexMaintenance.add_document`: iterate the document's
unique tokens (`set(tokens)`, modelled as `dedup`; the final state does not
depend on the iteration order) performing `addToken` for each. -/
def addDocument (m : InvIndex) (doc_id : ℕ) (tokens : List String) :
    Except Unit InvIndex :=
  addTokens doc_id m tokens.dedup

/-- Per-document loop of `build_index`. -/
def buildDocs (m : InvIndex) : List (ℕ × List String) → Except Unit InvIndex
  | [] => .ok m
  | d :: ds =>
    match addDocument m d.1 d.2 with
    | .error e => .error e
    | .ok m₁ => buildDocs m₁ ds

/-- Embedding of `InvertedIndex.build_index`: clear both dicts (`clear` keeps
the dict kind), then run the `add`/increment loop for every document. -/
def buildIndex (m : InvIndex) (docs : List (ℕ × List String)) :
    Except Unit InvIndex :=
  buildDocs
    { keys := ∅, post := fun _ => ∅, dfKeys := ∅, df := fun _ => 0,
      isDefault := m.isDefault }
    docs

/-- Embedding of `IndexMaintenance.remove_document`: every term whose posting
set contains `doc_id` loses it and has its document frequency decremented
(`self.doc_freq[term] -= 1`, a raw read that reaches only terms present in
`self.index`); terms whose frequency then equals 0 are deleted from both
dicts. -/
def removeDocument (m : InvIndex) (doc_id : ℕ) : InvIndex :=
  { keys := m.keys.filter fun t => ¬(doc_id ∈ m.post t ∧ m.df t - 1 = 0)
    post := fun t =>
      if t ∈ m.keys ∧ doc_id ∈ m.post t then (m.post t).erase doc_id else m.post t
    dfKeys := m.dfKeys.filter fun t => ¬(t ∈ m.keys ∧ doc_id ∈ m.post t ∧ m.df t - 1 = 0)
    df := fun t =>
      if t ∈ m.keys ∧ doc_id ∈ m.post t then m.df t - 1 else m.df t
    isDefault := m.isDefault }

/-- Embedding of `IndexMaintenance.merge_indexes`: for every term of the
other index, union its postings into `self.index.index[term]` (a
`defaultdict` read that raises on a plain dict when absent) and set
`self.doc_freq[term]` to the resulting cardinality.  The other index's items
are supplied as an association list. -/
def mergeIndexes (m : InvIndex) : List (String × Finset ℕ) → Except Unit InvIndex
  | [] => .ok m
  | p :: ps =>
    if m.isDefault = false ∧ p.1 ∉ m.keys then .error ()
    else
      mergeIndexes
        { keys := insert p.1 m.keys
          post := Function.update m.post p.1 (postGet m p.1 ∪ p.2)
          dfKeys := insert p.1 m.dfKeys
          df := Function.update m.df p.1 ((postGet m p.1 ∪ p.2).card : ℤ)
          isDefault := m.isDefault }
        ps

/-- Embedding of `InvertedIndex.save_index`: the JSON file is the mapping
from each term of the index to the sorted list of its posting ids.  No
document-frequency field is stored. -/
def saveIndex (m : InvIndex) : Finset String × (String → List ℕ) :=
  (m.keys, fun t => (postGet m t).sort (· ≤ ·))

/-- Embedding of `InvertedIndex.load_index`: postings become sets again,
`doc_freq` is recomputed as the length of each stored list, and `self.index`
becomes a plain dict (comprehension), not a `defaultdict`. -/
def loadIndex (file : Finset String × (String → List ℕ)) : InvIndex :=
  { keys := file.1
    post := fun t => (file.2 t).toFinset
    dfKeys := file.1
    df := fun t => ((file.2 t).length : ℤ)
    isDefault := false }

/-- The documented invariant: every term present in the index has a
document-frequency entry equal to the cardinality of its posting set. -/
def Invariant (m : InvIndex) : Prop :=
  ∀ t ∈ m.keys, t ∈ m.dfKeys ∧ m.df t = ((m.post t).card : ℤ)

instance : DecidablePred Invariant := fun m =>
  inferInstanceAs (Decidable (∀ t ∈ m.keys, t ∈ m.dfKeys ∧ m.df t = ((m.post t).card : ℤ)))

/-! ## Parallel build (`ParallelIndexBuilder`, partie2_compression_maintenance.py) -/

/-- Batch splitting loop `for i in range(0, len(documents), batch_size)`,
written with an explicit fuel argument (the list length) for structural
termination; `batch_size ≥ 1` at the call site. -/
def chunkGo (k : ℕ) : ℕ → List (ℕ × String) → List (List (ℕ × String))
  | 0, _ => []
  | _, [] => []
  | fuel + 1, l@(_ :: _) => l.take k :: chunkGo k fuel (l.drop k)

/-- Splitting of `documents` into contiguous batches of size `k`. -/
def chunkBatches (k : ℕ) (l : List (ℕ × String)) : List (List (ℕ × String)) :=
  chunkGo k l.length l

/-- Embedding of `process_document_batch`: each worker normalizes its batch
with its own processor; the shared normalization semantics is the parameter
`tok` (text ↦ token list). -/
def processDocumentBatch (tok : String → List String) (batch : List (ℕ × String)) :
    List (ℕ × List String) :=
  batch.map fun d => (d.1, tok d.2)

/-- Embedding of `ParallelIndexBuilder.build_index_parallel`:
`batch_size = max(1, len(documents) // num_workers)`, the batches are
normalized independently, concatenated in order (`executor.map` preserves
order), and the final index is built sequentially from the combined list. -/
def buildIndexParallel (documents : List (ℕ × String)) (num_workers : ℕ)
    (tok : String → List String) : Except Unit InvIndex :=
  let batch_size := max 1 (documents.length / num_workers)
  let processed := ((chunkBatches batch_size documents).map
    (processDocumentBatch tok)).flatten
  buildIndex emptyIndex processed

/-! ## Language model (`ModeleLangue`, modele_langue.py) -/

/-- Constructor state of `ModeleLangue`: the pre-processed documents
(`(id, tokens)` pairs, in list order) and the Jelinek-Mercer smoothing
parameter `lambda_param`. -/
structure ModeleLangue where
  documents : List (ℕ × List String)
  lambda_param : ℚ

/-- Total token count of the collection (`self.collection_length`). -/
def lmCollectionLength (m : ModeleLangue) : ℕ :=
  (m.documents.map fun d => d.2.length).sum

/-- Collection frequency of a term (`self.collection_tf[term]`). -/
def lmCollectionTf (m : ModeleLangue) (t : String) : ℕ :=
  (m.documents.map fun d => d.2.count t).sum

/-- Read of `self.collection_prob.get(term, 1 / max(self.collection_length, 1))`:
terms that occur in the collection have probability
`count / max(collection_length, 1)`; absent terms get the default
`1 / max(collection_length, 1)`, not 0. -/
def lmCollectionProbGet (m : ModeleLangue) (t : String) : ℚ :=
  if 0 < lmCollectionTf m t then
    (lmCollectionTf m t : ℚ) / ((max (lmCollectionLength m) 1 : ℕ) : ℚ)
  else 1 / ((max (lmCollectionLength m) 1 : ℕ) : ℚ)

/-- Read of `self.doc_lengths[doc_id]` (last write wins for a repeated id;
absent ids, which Python would reject with `KeyError`, default to 0). -/
def lmDocLength (m : ModeleLangue) (doc_id : ℕ) : ℕ :=
  ((m.documents.reverse.find? fun d => d.1 = doc_id).map fun d => d.2.length).getD 0

/-- Read of `self.tf[doc_id][term]` (occurrences accumulated over every list
entry carrying this id). -/
def lmTf (m : ModeleLangue) (doc_id : ℕ) (t : String) : ℕ :=
  ((m.documents.filter fun d => d.1 = doc_id).map fun d => d.2.count t).sum

/-- Embedding of `ModeleLangue._compute_term_probability`:
`λ * P(term|doc) + (1-λ) * P(term|collection)`, with the document
probability 0 for an empty document. -/
def lmTermProbability (m : ModeleLangue) (doc_id : ℕ) (t : String) : ℚ :=
  let doc_prob : ℚ :=
    if lmDocLength m doc_id = 0 then 0
    else (lmTf m doc_id t : ℚ) / (lmDocLength m doc_id : ℚ)
  m.lambda_param * doc_prob + (1 - m.lambda_param) * lmCollectionProbGet m t

/-- Per-term contribution inside `ModeleLangue.search`:
`log10(prob)` when the smoothed probability is positive, otherwise the fixed
floor `log10(1e-10)`. -/
noncomputable def lmTermContribution (m : ModeleLangue) (doc_id : ℕ) (t : String) : ℝ :=
  if 0 < lmTermProbability m doc_id t then
    Real.logb 10 ((lmTermProbability m doc_id t : ℚ) : ℝ)
  else Real.logb 10 ((1 : ℝ) / 10 ^ 10)

/-- Stable descending sort by score:
`sorted(items, key=lambda x: x[1], reverse=True)` (Python's sort is stable,
so entries with equal scores keep their enumeration order). -/
noncomputable def pySortDesc (l : List (ℕ × ℝ)) : List (ℕ × ℝ) :=
  have : DecidableRel fun (a b : ℕ × ℝ) => b.2 ≤ a.2 := Classical.decRel _
  l.insertionSort fun a b => b.2 ≤ a.2

/-- Embedding of `ModeleLangue.search` with the query already normalized to
`query_terms`: an empty normalized query returns `[]`; otherwise every
document of the collection is scored by the sum of its per-term
log-probability contributions, the `(doc_id, score)` pairs are sorted by
descending score, and the first `top_k` are returned. -/
noncomputable def lmSearch (m : ModeleLangue) (query_terms : List String)
    (top_k : ℕ) : List (ℕ × ℝ) :=
  if query_terms = [] then []
  else
    (pySortDesc (m.documents.map fun d =>
      (d.1, (query_terms.map fun t => lmTermContribution m d.1 t).sum))).take top_k

/-! ## BM25 model (`ModeleProbabiliste`, modele_probabiliste.py) -/

/-- Constructor state of `ModeleProbabiliste`: the inverted index (key set
plus posting function), the pre-processed documents, and the parameters
`k1`, `b`. -/
structure ModeleProbabiliste where
  indexKeys : Finset String
  index : String → Finset ℕ
  documents : List (ℕ × List String)
  k1 : ℝ
  b : ℝ

/-- Number of documents (`self.num_docs = len(documents)`). -/
def bmNumDocs (m : ModeleProbabiliste) : ℕ := m.documents.length

/-- Read of `self.tf[doc_id][term]`. -/
def bmTf (m : ModeleProbabiliste) (doc_id : ℕ) (t : String) : ℕ :=
  ((m.documents.filter fun d => d.1 = doc_id).map fun d => d.2.count t).sum

/-- Document frequency `self.df[term]` (for the pairwise-distinct document
ids produced by the corpus this is the number of documents containing the
term). -/
def bmDf (m : ModeleProbabiliste) (t : String) : ℕ :=
  (m.documents.filter fun d => t ∈ d.2).length

/-- Read of `self.doc_lengths[doc_id]`. -/
def bmDocLength (m : ModeleProbabiliste) (doc_id : ℕ) : ℕ :=
  ((m.documents.reverse.find? fun d => d.1 = doc_id).map fun d => d.2.length).getD 0

/-- Average document length (`sum(lengths) / len(lengths)`, 0 for an empty
collection). -/
noncomputable def bmAvgDocLength (m : ModeleProbabiliste) : ℝ :=
  if m.documents = [] then 0
  else ((m.documents.map fun d => d.2.length).sum : ℝ) / (m.documents.length : ℝ)

/-- Embedding of `ModeleProbabiliste._compute_idf`: 0 when `df = 0`,
otherwise `log10((N - df + 0.5) / (df + 0.5))` (no clamping for large df). -/
noncomputable def bm25Idf (N df : ℕ) : ℝ :=
  if df = 0 then 0
  else Real.logb 10 (((N : ℝ) - (df : ℝ) + 1 / 2) / ((df : ℝ) + 1 / 2))

/-- Score formula of `ModeleProbabiliste._compute_bm25_score` with its
inputs (collection size, document frequency, parameters, document length,
term frequency) made explicit:
`idf * (tf * (k1 + 1)) / (tf + k1 * (1 - b + b * doc_length / max(avgdl, 1)))`,
and 0 when the term does not occur in the document. -/
noncomputable def bm25ScoreAt (N df : ℕ) (k1 b avgdl : ℝ) (doc_length tf : ℕ) : ℝ :=
  if tf = 0 then 0
  else
    bm25Idf N df *
      ((tf : ℝ) * (k1 + 1)) / ((tf : ℝ) + k1 * (1 - b + b * ((doc_length : ℝ) / max avgdl 1)))

/-- Embedding of `ModeleProbabiliste._compute_bm25_score` for a model
instance. -/
noncomputable def bmComputeScore (m : ModeleProbabiliste) (doc_id : ℕ) (t : String) : ℝ :=
  bm25ScoreAt (bmNumDocs m) (bmDf m t) m.k1 m.b (bmAvgDocLength m)
    (bmDocLength m doc_id) (bmTf m doc_id t)

/-- Candidate enumeration of `ModeleProbabiliste.search`: the keys of the
`doc_scores` defaultdict in first-touch order.  Python iterates each posting
set in unspecified order; the enumeration is fixed here to ascending id
inside each posting set (the ranking theorems do not depend on this
choice). -/
def bmCandidates (m : ModeleProbabiliste) (query_terms : List String) : List ℕ :=
  query_terms.foldl
    (fun acc t =>
      if t ∈ m.indexKeys then
        acc ++ (((m.index t).sort (· ≤ ·)).filter fun d => d ∉ acc)
      else acc)
    []

/-- Accumulated score `doc_scores[doc_id]`: one `_compute_bm25_score`
contribution for every occurrence of a query term whose posting set contains
the document. -/
noncomputable def bmDocScore (m : ModeleProbabiliste) (query_terms : List String)
    (doc_id : ℕ) : ℝ :=
  ((query_terms.filter fun t => t ∈ m.indexKeys ∧ doc_id ∈ m.index t).map
    fun t => bmComputeScore m doc_id t).sum

/-- Embedding of `ModeleProbabiliste.search` with the query already
normalized: empty query → `[]`; otherwise the touched documents are sorted
by descending accumulated BM25 score and truncated to `top_k`. -/
noncomputable def bmSearch (m : ModeleProbabiliste) (query_terms : List String)
    (top_k : ℕ) : List (ℕ × ℝ) :=
  if query_terms = [] then []
  else
    (pySortDesc ((bmCandidates m query_terms).map fun d =>
      (d, bmDocScore m query_terms d))).take top_k

/-! ## Vector model (`ModeleVectoriel`, modele_vectoriel.py) -/

/-- Constructor state of `ModeleVectoriel`. -/
structure ModeleVectoriel where
  indexKeys : Finset String
  documents : List (ℕ × List String)

/-- Read of `self.tf[doc_id][term]` (counted only for vocabulary terms;
callers below only query vocabulary terms). -/
def vecTf (m : ModeleVectoriel) (doc_id : ℕ) (t : String) : ℕ :=
  ((m.documents.filter fun d => d.1 = doc_id).map fun d => d.2.count t).sum

/-- Document frequency `self.df[term]`. -/
def vecDf (m : ModeleVectoriel) (t : String) : ℕ :=
  (m.documents.filter fun d => t ∈ d.2).length

/-- Raw (un-normalized) TF-IDF coordinate of a document vector: nonzero
exactly on vocabulary terms occurring in the document, with TF
`1 + log10(count)` and IDF `log10(num_docs / max(df, 1))`. -/
noncomputable def vecRawDocCoord (m : ModeleVectoriel) (doc_id : ℕ) (t : String) : ℝ :=
  if t ∈ m.indexKeys ∧ 0 < vecTf m doc_id t then
    (1 + Real.logb 10 (vecTf m doc_id t : ℝ)) *
      Real.logb 10 ((m.documents.length : ℝ) / ((max (vecDf m t) 1 : ℕ) : ℝ))
  else 0

/-- L2 norm of the raw document vector over the vocabulary coordinates. -/
noncomputable def vecDocNorm (m : ModeleVectoriel) (doc_id : ℕ) : ℝ :=
  Real.sqrt (∑ t ∈ m.indexKeys, vecRawDocCoord m doc_id t ^ 2)

/-- Normalized document vector stored in `self.doc_vectors` (left unchanged
when the norm is 0). -/
noncomputable def vecDocCoord (m : ModeleVectoriel) (doc_id : ℕ) (t : String) : ℝ :=
  if 0 < vecDocNorm m doc_id then vecRawDocCoord m doc_id t / vecDocNorm m doc_id
  else vecRawDocCoord m doc_id t

/-- Raw TF-IDF coordinate of the query vector
(`ModeleVectoriel._compute_query_vector`). -/
noncomputable def vecRawQueryCoord (m : ModeleVectoriel) (query_terms : List String)
    (t : String) : ℝ :=
  if t ∈ m.indexKeys ∧ 0 < query_terms.count t then
    (1 + Real.logb 10 (query_terms.count t : ℝ)) *
      Real.logb 10 ((m.documents.length : ℝ) / ((max (vecDf m t) 1 : ℕ) : ℝ))
  else 0

/-- L2 norm of the raw query vector. -/
noncomputable def vecQueryNorm (m : ModeleVectoriel) (query_terms : List String) : ℝ :=
  Real.sqrt (∑ t ∈ m.indexKeys, vecRawQueryCoord m query_terms t ^ 2)

/-- Normalized query vector coordinate. -/
noncomputable def vecQueryCoord (m : ModeleVectoriel) (query_terms : List String)
    (t : String) : ℝ :=
  if 0 < vecQueryNorm m query_terms then
    vecRawQueryCoord m query_terms t / vecQueryNorm m query_terms
  else vecRawQueryCoord m query_terms t

/-- Cosine similarity `np.dot(query_vector, doc_vector)` over the vocabulary
coordinates. -/
noncomputable def vecSimilarity (m : ModeleVectoriel) (query_terms : List String)
    (doc_id : ℕ) : ℝ :=
  ∑ t ∈ m.indexKeys, vecQueryCoord m query_terms t * vecDocCoord m doc_id t

/-- Embedding of `ModeleVectoriel.search` with the query already normalized:
empty query → `[]`; otherwise every document (in `self.doc_vectors`
insertion order, i.e. documents-list order) is paired with its similarity,
the pairs are sorted by descending score, and the first `top_k` are
returned. -/
noncomputable def vecSearch (m : ModeleVectoriel) (query_terms : List String)
    (top_k : ℕ) : List (ℕ × ℝ) :=
  if query_terms = [] then []
  else
    (pySortDesc (m.documents.map fun d =>
      (d.1, vecSimilarity m query_terms d.1))).take top_k

/-! ## Theorems: compression round-trips (C5, C6) -/

theorem lor_and_small : ∀ x < 128, (x ||| 128) &&& 127 = x ∧ x ||| 128 = x + 128 := by
  decide

theorem and127_small : ∀ x < 128, x &&& 127 = x := by
  decide

theorem decompress_vb_go_compress (n : ℕ) :
    ∀ acc shift, decompress_vb_go acc shift (compress_variable_byte n) = acc + n * 2 ^ shift := by
  induction n using Nat.strong_induction_on with
  | _ n ih =>
    intro acc shift
    rw [compress_variable_byte]
    by_cases h : 128 ≤ n
    · rw [dif_pos h]
      have hmod : n % 128 < 128 := Nat.mod_lt _ (by norm_num)
      have hb : ¬ ((n % 128) ||| 128) < 128 := by
        have := (lor_and_small _ hmod).2
        omega
      rw [decompress_vb_go, if_neg hb, (lor_and_small _ hmod).1, Nat.shiftLeft_eq,
        ih (n / 128) (Nat.div_lt_self (by omega) (by norm_num))]
      have hpow : (2 : ℕ) ^ (shift + 7) = 2 ^ shift * 128 := by
        rw [pow_add]; norm_num
      have hdm := Nat.div_add_mod n 128
      calc acc + n % 128 * 2 ^ shift + n / 128 * 2 ^ (shift + 7)
          = acc + (128 * (n / 128) + n % 128) * 2 ^ shift := by rw [hpow]; ring
        _ = acc + n * 2 ^ shift := by rw [hdm]
    · rw [dif_neg h]
      have hlt : n < 128 := by omega
      rw [show n % 128 = n from Nat.mod_eq_of_lt hlt]
      rw [decompress_vb_go, if_pos hlt, and127_small _ hlt, Nat.shiftLeft_eq]

/-- C6: for every non-negative integer `n`, decoding the variable-byte
encoding of `n` (7-bit groups with continuation bits, low group first)
returns `n`. -/
theorem c6_varint_roundtrip (n : ℕ) :
    decompress_variable_byte (compress_variable_byte n) = n := by
  rw [decompress_variable_byte, decompress_vb_go_compress n 0 0]
  simp

theorem scanl_add_zipWith_sub :
    ∀ (t : List ℕ) (a : ℕ), List.Chain' (· ≤ ·) (a :: t) →
      List.scanl (· + ·) a (List.zipWith (fun x y => y - x) (a :: t) t) = a :: t := by
  intro t
  induction t with
  | nil => intro a _; simp
  | cons b t' ih =>
    intro a h
    rcases List.chain'_cons.mp h with ⟨hab, htail⟩
    have hzip : List.zipWith (fun x y => y - x) (a :: b :: t') (b :: t') =
        (b - a) :: List.zipWith (fun x y => y - x) (b :: t') t' := rfl
    rw [hzip, List.scanl_cons, Nat.add_sub_cancel' hab, ih b htail]
    rfl

theorem insertionSort_eq_finsetSort (xs : List ℕ) (h : xs.Nodup) :
    xs.insertionSort (· ≤ ·) = Finset.sort (· ≤ ·) xs.toFinset := by
  have h1 : (xs.insertionSort (· ≤ ·)).Nodup :=
    (List.perm_insertionSort _ xs).nodup_iff.mpr h
  have h2 := (List.toFinset_sort (fun x1 x2 : ℕ => x1 ≤ x2) h1).mpr
    (List.sorted_insertionSort _ xs)
  rw [List.toFinset_eq_of_perm _ _ (List.perm_insertionSort _ xs)] at h2
  exact h2.symm

/-- C5: for a duplicate-free list of ids, gap decoding inverts gap encoding
and returns the sorted list of the distinct ids; the first encoded element
is the smallest id verbatim and each later element is the difference to the
previous sorted id; empty input encodes and decodes to empty output. -/
theorem c5_gap_roundtrip (xs : List ℕ) (hnd : xs.Nodup) :
    decompress_gap_encoding (compress_gap_encoding xs) = Finset.sort (· ≤ ·) xs.toFinset ∧
    (∀ h t, Finset.sort (· ≤ ·) xs.toFinset = h :: t →
      compress_gap_encoding xs = h :: List.zipWith (fun a b => b - a) (h :: t) t) ∧
    compress_gap_encoding [] = [] ∧ decompress_gap_encoding [] = [] := by
  refine ⟨?_, ?_, rfl, rfl⟩
  · by_cases hxs : xs = []
    · subst hxs
      simp [compress_gap_encoding, decompress_gap_encoding]
    · rw [compress_gap_encoding, if_neg hxs, ← insertionSort_eq_finsetSort xs hnd]
      have hlen : (xs.insertionSort (· ≤ ·)).length = xs.length :=
        List.length_insertionSort _ xs
      rcases hs : xs.insertionSort (· ≤ ·) with _ | ⟨h, t⟩
      · rw [hs] at hlen
        exact absurd (List.length_eq_zero.mp hlen.symm) hxs
      · have hchain : List.Chain' (· ≤ ·) (h :: t) := by
          have := List.sorted_insertionSort (· ≤ ·) xs
          rw [hs] at this
          exact this.chain'
        rw [decompress_gap_encoding]
        exact scanl_add_zipWith_sub t h hchain
  · intro h t hsort
    rw [← insertionSort_eq_finsetSort xs hnd] at hsort
    have hxs : ¬ xs = [] := by
      intro hx
      rw [hx] at hsort
      simp at hsort
    rw [compress_gap_encoding, if_neg hxs, hsort]

theorem c5_witness :
    (([3, 1, 2] : List ℕ).Nodup ∧
      decompress_gap_encoding (compress_gap_encoding [3, 1, 2]) =
        Finset.sort (· ≤ ·) ([3, 1, 2] : List ℕ).toFinset) ∧
    decompress_gap_encoding (compress_gap_encoding [3, 1, 2]) = [1, 2, 3] :=
  ⟨⟨by decide, (c5_gap_roundtrip [3, 1, 2] (by decide)).1⟩, by decide⟩

/-! ## Characterization of the index mutations -/

theorem addToken_ok_char {doc_id : ℕ} {m : InvIndex} {t : String} {m' : InvIndex}
    (h : addToken doc_id m t = .ok m') :
    m'.keys = insert t m.keys ∧ m'.dfKeys = insert t m.dfKeys ∧
    m'.isDefault = m.isDefault ∧
    (∀ s, postGet m' s = if s = t then insert doc_id (postGet m t) else postGet m s) ∧
    (∀ s, dfGet m' s = if s = t then dfGet m t + 1 else dfGet m s) := by
  rw [addToken] at h
  split at h
  · exact absurd h (by simp)
  · injection h with h2
    subst h2
    refine ⟨rfl, rfl, rfl, ?_, ?_⟩
    · intro s
      by_cases hs : s = t
      · subst hs
        simp [postGet]
      · simp [postGet, Function.update_noteq hs, Finset.mem_insert, hs]
    · intro s
      by_cases hs : s = t
      · subst hs
        simp [dfGet]
      · simp [dfGet, Function.update_noteq hs, Finset.mem_insert, hs]

theorem addToken_ok_default (doc_id : ℕ) {m : InvIndex} (t : String)
    (h : m.isDefault = true) : ∃ m', addToken doc_id m t = .ok m' := by
  rw [addToken]
  rw [if_neg (by simp [h])]
  exact ⟨_, rfl⟩

theorem addToken_ok_mem {doc_id : ℕ} {m : InvIndex} {t : String} {m' : InvIndex}
    (h : addToken doc_id m t = .ok m') (hdef : m.isDefault = false) : t ∈ m.keys := by
  rw [addToken] at h
  split at h
  · exact absurd h (by simp)
  · rename_i hcond
    rcases not_and_or.mp hcond with h1 | h2
    · exact absurd hdef h1
    · exact not_not.mp h2

theorem addTokens_ok_char {doc_id : ℕ} :
    ∀ (ts : List String) (m m' : InvIndex), ts.Nodup →
      addTokens doc_id m ts = .ok m' →
      m'.keys = m.keys ∪ ts.toFinset ∧ m'.dfKeys = m.dfKeys ∪ ts.toFinset ∧
      m'.isDefault = m.isDefault ∧
      (∀ s, postGet m' s = if s ∈ ts then insert doc_id (postGet m s) else postGet m s) ∧
      (∀ s, dfGet m' s = if s ∈ ts then dfGet m s + 1 else dfGet m s) := by
  intro ts
  induction ts with
  | nil =>
    intro m m' _ h
    injection h with h2
    subst h2
    simp
  | cons t ts ih =>
    intro m m' hnd h
    rw [addTokens] at h
    cases haddtok : addToken doc_id m t with
    | error e => rw [haddtok] at h; exact absurd h (by simp)
    | ok m₁ =>
      rw [haddtok] at h
      obtain ⟨hk, hdk, hd, hp, hdf⟩ := addToken_ok_char haddtok
      obtain ⟨hk2, hdk2, hd2, hp2, hdf2⟩ := ih m₁ m' (List.nodup_cons.mp hnd).2 h
      have hts : t ∉ ts := (List.nodup_cons.mp hnd).1
      refine ⟨?_, ?_, hd2.trans hd, ?_, ?_⟩
      · rw [hk2, hk, List.toFinset_cons, Finset.insert_union, Finset.union_insert]
      · rw [hdk2, hdk, List.toFinset_cons, Finset.insert_union, Finset.union_insert]
      · intro s
        by_cases hs : s = t
        · subst hs
          rw [hp2 s, if_neg hts, hp s, if_pos rfl, if_pos (List.mem_cons_self s ts)]
        · rw [hp2 s, hp s, if_neg hs]
          by_cases hmem : s ∈ ts
          · rw [if_pos hmem, if_pos (List.mem_cons_of_mem t hmem)]
          · rw [if_neg hmem, if_neg (by simp [hs, hmem])]
      · intro s
        by_cases hs : s = t
        · subst hs
          rw [hdf2 s, if_neg hts, hdf s, if_pos rfl, if_pos (List.mem_cons_self s ts)]
        · rw [hdf2 s, hdf s, if_neg hs]
          by_cases hmem : s ∈ ts
          · rw [if_pos hmem, if_pos (List.mem_cons_of_mem t hmem)]
          · rw [if_neg hmem, if_neg (by simp [hs, hmem])]

theorem addDocument_ok_char {m : InvIndex} {doc_id : ℕ} {tokens : List String}
    {m' : InvIndex} (h : addDocument m doc_id tokens = .ok m') :
    m'.keys = m.keys ∪ tokens.toFinset ∧ m'.dfKeys = m.dfKeys ∪ tokens.toFinset ∧
    m'.isDefault = m.isDefault ∧
    (∀ s, postGet m' s = if s ∈ tokens then insert doc_id (postGet m s) else postGet m s) ∧
    (∀ s, dfGet m' s = if s ∈ tokens then dfGet m s + 1 else dfGet m s) := by
  obtain ⟨hk, hdk, hd, hp, hdf⟩ :=
    addTokens_ok_char tokens.dedup m m' (List.nodup_dedup tokens) h
  have hfin : tokens.dedup.toFinset = tokens.toFinset := by
    ext s
    simp [List.mem_dedup]
  rw [hfin] at hk hdk
  refine ⟨hk, hdk, hd, ?_, ?_⟩
  · intro s
    rw [hp s]
    by_cases hmem : s ∈ tokens
    · rw [if_pos (List.mem_dedup.mpr hmem), if_pos hmem]
    · rw [if_neg (fun hc => hmem (List.mem_dedup.mp hc)), if_neg hmem]
  · intro s
    rw [hdf s]
    by_cases hmem : s ∈ tokens
    · rw [if_pos (List.mem_dedup.mpr hmem), if_pos hmem]
    · rw [if_neg (fun hc => hmem (List.mem_dedup.mp hc)), if_neg hmem]

/-! ## Invariant preservation (C1) -/

theorem dfGet_eq_card {m : InvIndex} (hInv : Invariant m)
    (hdf0 : ∀ t, t ∉ m.keys → dfGet m t = 0) (t : String) :
    dfGet m t = ((postGet m t).card : ℤ) := by
  by_cases ht : t ∈ m.keys
  · obtain ⟨h1, h2⟩ := hInv t ht
    simp [postGet, dfGet, ht, h1, h2]
  · simp [postGet, ht, hdf0 t ht]

theorem addDocument_invariant {m m' : InvIndex} {doc_id : ℕ} {tokens : List String}
    (hInv : Invariant m) (hdf0 : ∀ t, t ∉ m.keys → dfGet m t = 0)
    (hfresh : ∀ t, doc_id ∉ postGet m t)
    (h : addDocument m doc_id tokens = .ok m') : Invariant m' := by
  obtain ⟨hk, hdk, _, hp, hdf⟩ := addDocument_ok_char h
  intro t ht
  have htk : t ∈ m.keys ∨ t ∈ tokens := by
    rw [hk] at ht
    simpa [List.mem_toFinset] using Finset.mem_union.mp ht
  have hdkmem : t ∈ m'.dfKeys := by
    rw [hdk, Finset.mem_union]
    rcases htk with h1 | h1
    · exact Or.inl (hInv t h1).1
    · exact Or.inr (List.mem_toFinset.mpr h1)
  refine ⟨hdkmem, ?_⟩
  have hget : dfGet m' t = ((postGet m' t).card : ℤ) := by
    rw [hp t, hdf t]
    by_cases hmem : t ∈ tokens
    · rw [if_pos hmem, if_pos hmem, dfGet_eq_card hInv hdf0 t,
        Finset.card_insert_of_not_mem (hfresh t)]
      push_cast
      ring
    · rw [if_neg hmem, if_neg hmem, dfGet_eq_card hInv hdf0 t]
  simp only [dfGet, postGet] at hget
  rwa [if_pos hdkmem, if_pos ht] at hget

theorem addDocument_dfGet_zero {m m' : InvIndex} {doc_id : ℕ} {tokens : List String}
    (hdf0 : ∀ t, t ∉ m.keys → dfGet m t = 0)
    (h : addDocument m doc_id tokens = .ok m') :
    ∀ t, t ∉ m'.keys → dfGet m' t = 0 := by
  obtain ⟨hk, _, _, _, hdf⟩ := addDocument_ok_char h
  intro t ht
  rw [hk, Finset.mem_union] at ht
  push_neg at ht
  have htok : t ∉ tokens := fun hc => ht.2 (List.mem_toFinset.mpr hc)
  rw [hdf t, if_neg htok]
  exact hdf0 t ht.1

theorem buildDocs_invariant :
    ∀ (docs : List (ℕ × List String)) (acc m' : InvIndex) (S : Finset ℕ),
      Invariant acc → (∀ t, t ∉ acc.keys → dfGet acc t = 0) →
      (∀ t d, d ∈ postGet acc t → d ∈ S) →
      (∀ d ∈ docs, d.1 ∉ S) → (docs.map Prod.fst).Nodup →
      buildDocs acc docs = .ok m' → Invariant m' := by
  intro docs
  induction docs with
  | nil =>
    intro acc m' S hInv _ _ _ _ h
    injection h with h2
    subst h2
    exact hInv
  | cons d ds ih =>
    intro acc m' S hInv hdf0 hsub hids hnd h
    rw [buildDocs] at h
    cases hstep : addDocument acc d.1 d.2 with
    | error e => rw [hstep] at h; exact absurd h (by simp)
    | ok m₁ =>
      rw [hstep] at h
      obtain ⟨hk, hdk, hd, hp, hdf⟩ := addDocument_ok_char hstep
      have hfresh : ∀ t, d.1 ∉ postGet acc t :=
        fun t hc => hids d (List.mem_cons_self d ds) (hsub t d.1 hc)
      have hInv₁ : Invariant m₁ := addDocument_invariant hInv hdf0 hfresh hstep
      have hnd' := hnd
      rw [List.map_cons, List.nodup_cons] at hnd'
      refine ih m₁ m' (insert d.1 S) hInv₁
        (addDocument_dfGet_zero hdf0 hstep) ?_ ?_ hnd'.2 h
      · intro t x hx
        rw [hp t] at hx
        by_cases hmem : t ∈ d.2
        · rw [if_pos hmem, Finset.mem_insert] at hx
          rcases hx with h1 | h1
          · exact h1 ▸ Finset.mem_insert_self _ _
          · exact Finset.mem_insert_of_mem (hsub t x h1)
        · rw [if_neg hmem] at hx
          exact Finset.mem_insert_of_mem (hsub t x hx)
      · intro e he hmem
        rw [Finset.mem_insert] at hmem
        rcases hmem with h1 | h1
        · exact hnd'.1 (h1 ▸ List.mem_map_of_mem Prod.fst he)
        · exact hids e (List.mem_cons_of_mem d he) h1

theorem buildIndex_invariant {m : InvIndex} {docs : List (ℕ × List String)}
    {m' : InvIndex} (hnd : (docs.map Prod.fst).Nodup)
    (h : buildIndex m docs = .ok m') : Invariant m' := by
  refine buildDocs_invariant docs _ m' ∅ ?_ ?_ ?_ ?_ hnd h
  · intro t ht
    exact absurd ht (Finset.not_mem_empty t)
  · intro t _
    simp [dfGet]
  · intro t d hd
    simp [postGet] at hd
  · intro d _
    exact Finset.not_mem_empty _

theorem removeDocument_invariant {m : InvIndex} (hInv : Invariant m) (doc_id : ℕ) :
    Invariant (removeDocument m doc_id) := by
  intro t ht
  simp only [removeDocument] at ht ⊢
  obtain ⟨htk, hcond⟩ := Finset.mem_filter.mp ht
  obtain ⟨hdk, hcard⟩ := hInv t htk
  constructor
  · exact Finset.mem_filter.mpr ⟨hdk, fun hc => hcond ⟨hc.2.1, hc.2.2⟩⟩
  · by_cases hmem : doc_id ∈ m.post t
    · rw [if_pos ⟨htk, hmem⟩, if_pos ⟨htk, hmem⟩,
        Finset.card_erase_of_mem hmem, hcard]
      have hpos : 0 < (m.post t).card := Finset.card_pos.mpr ⟨doc_id, hmem⟩
      omega
    · rw [if_neg (fun hc => hmem hc.2), if_neg (fun hc => hmem hc.2)]
      exact hcard

theorem mergeIndexes_invariant :
    ∀ (other : List (String × Finset ℕ)) (m m' : InvIndex), Invariant m →
      mergeIndexes m other = .ok m' → Invariant m' := by
  intro other
  induction other with
  | nil =>
    intro m m' hInv h
    injection h with h2
    subst h2
    exact hInv
  | cons p ps ih =>
    intro m m' hInv h
    rw [mergeIndexes] at h
    split at h
    · exact absurd h (by simp)
    · refine ih _ m' ?_ h
      intro t ht
      simp only at ht ⊢
      by_cases hts : t = p.1
      · subst hts
        refine ⟨Finset.mem_insert_self _ _, ?_⟩
        rw [Function.update_same, Function.update_same]
      · rw [Finset.mem_insert] at ht
        rcases ht with h1 | h1
        · exact absurd h1 hts
        · obtain ⟨h2, h3⟩ := hInv t h1
          refine ⟨Finset.mem_insert_of_mem h2, ?_⟩
          rw [Function.update_noteq hts, Function.update_noteq hts]
          exact h3

/-- C1 (amended): every completed `build_index` over documents with
pairwise-distinct ids yields an index satisfying `doc_freq[t] = |index[t]|`
for every indexed term; `remove_document` and `merge_indexes` preserve the
invariant; `add_document` preserves it provided the document id is not
already present in any posting list and the doc-frequency table carries no
entries for un-indexed terms (as in every state the public operations
produce).  Re-adding an id already present breaks the invariant (see the
counterexample). -/
theorem c1_doc_freq_invariant :
    (∀ (m : InvIndex) (docs : List (ℕ × List String)) (m' : InvIndex),
      (docs.map Prod.fst).Nodup → buildIndex m docs = .ok m' → Invariant m') ∧
    (∀ (m : InvIndex) (doc_id : ℕ) (tokens : List String) (m' : InvIndex),
      Invariant m → (∀ t, t ∉ m.keys → dfGet m t = 0) →
      (∀ t, doc_id ∉ postGet m t) →
      addDocument m doc_id tokens = .ok m' → Invariant m') ∧
    (∀ (m : InvIndex) (doc_id : ℕ),
      Invariant m → Invariant (removeDocument m doc_id)) ∧
    (∀ (m : InvIndex) (other : List (String × Finset ℕ)) (m' : InvIndex),
      Invariant m → mergeIndexes m other = .ok m' → Invariant m') :=
  ⟨fun _ _ _ hnd h => buildIndex_invariant hnd h,
   fun _ _ _ _ hInv hdf0 hfresh h => addDocument_invariant hInv hdf0 hfresh h,
   fun _ doc_id hInv => removeDocument_invariant hInv doc_id,
   fun _ other m' hInv h => mergeIndexes_invariant other _ m' hInv h⟩

theorem c1_doc_freq_invariant_witness :
    (∃ m', buildIndex emptyIndex [(1, ["a"]), (2, ["a", "b"])] = .ok m' ∧
      Invariant m' ∧ Invariant (removeDocument m' 2)) ∧
    (∃ m₂, addDocument (⟨{"a"}, fun _ => {1}, {"a"}, fun _ => 1, true⟩ : InvIndex)
      3 ["b"] = .ok m₂ ∧ Invariant m₂) ∧
    (∃ m₃, mergeIndexes (⟨{"a"}, fun _ => {1}, {"a"}, fun _ => 1, true⟩ : InvIndex)
      [("b", {2})] = .ok m₃ ∧ Invariant m₃) := by
  refine ⟨⟨_, rfl, ?_, ?_⟩, ⟨_, rfl, ?_⟩, ⟨_, rfl, ?_⟩⟩
  · exact c1_doc_freq_invariant.1 emptyIndex [(1, ["a"]), (2, ["a", "b"])] _
      (by decide) rfl
  · exact c1_doc_freq_invariant.2.2.1 _ 2
      (c1_doc_freq_invariant.1 emptyIndex [(1, ["a"]), (2, ["a", "b"])] _
        (by decide) rfl)
  · refine c1_doc_freq_invariant.2.1
      (⟨{"a"}, fun _ => {1}, {"a"}, fun _ => 1, true⟩ : InvIndex) 3 ["b"] _
      (by decide) ?_ ?_ rfl
    · intro t ht
      simp only [dfGet]
      rw [if_neg ht]
    · intro t
      simp only [postGet]
      split <;> decide
  · refine c1_doc_freq_invariant.2.2.2
      (⟨{"a"}, fun _ => {1}, {"a"}, fun _ => 1, true⟩ : InvIndex) [("b", {2})] _
      (by decide) rfl

theorem c1_doc_freq_invariant_counterexample :
    Invariant (⟨{"a"}, fun _ => {1}, {"a"}, fun _ => 1, true⟩ : InvIndex) ∧
    ∃ m', addDocument (⟨{"a"}, fun _ => {1}, {"a"}, fun _ => 1, true⟩ : InvIndex)
      1 ["a"] = .ok m' ∧ ¬ Invariant m' := by
  refine ⟨by decide, _, rfl, by decide⟩

/-! ## Add followed by remove (C7) -/

theorem postGet_pos {m : InvIndex} {t : String} (h : t ∈ m.keys) :
    postGet m t = m.post t := if_pos h

theorem postGet_neg {m : InvIndex} {t : String} (h : t ∉ m.keys) :
    postGet m t = ∅ := if_neg h

theorem dfGet_pos {m : InvIndex} {t : String} (h : t ∈ m.dfKeys) :
    dfGet m t = m.df t := if_pos h

theorem dfGet_neg {m : InvIndex} {t : String} (h : t ∉ m.dfKeys) :
    dfGet m t = 0 := if_neg h

/-- C7 (amended): starting from a consistent index (invariant holds, the
doc-frequency dict has exactly the indexed terms as keys, indexed terms have
non-empty postings — all true of every state the public operations build)
and a document id that occurs in no posting list, `add_document` followed by
`remove_document` of the same id restores the term→postings map and the
doc-frequency table exactly (key sets and values).  Re-adding an id that is
already present does not restore the index (see the counterexample). -/
theorem c7_add_remove_restore (m : InvIndex) (doc_id : ℕ) (tokens : List String)
    (m₁ : InvIndex) (hInv : Invariant m) (hdfk : m.dfKeys = m.keys)
    (hne : ∀ t ∈ m.keys, (m.post t).Nonempty)
    (hfresh : ∀ t, doc_id ∉ postGet m t)
    (hadd : addDocument m doc_id tokens = .ok m₁) :
    (removeDocument m₁ doc_id).keys = m.keys ∧
    (∀ t, postGet (removeDocument m₁ doc_id) t = postGet m t) ∧
    (removeDocument m₁ doc_id).dfKeys = m.dfKeys ∧
    (∀ t, dfGet (removeDocument m₁ doc_id) t = dfGet m t) := by
  obtain ⟨hk, hdk, hdflag, hp, hdf⟩ := addDocument_ok_char hadd
  have hkeys1 : ∀ t, t ∈ m₁.keys ↔ (t ∈ m.keys ∨ t ∈ tokens) := by
    intro t
    rw [hk, Finset.mem_union, List.mem_toFinset]
  have hdfkeys1 : m₁.dfKeys = m₁.keys := by rw [hk, hdk, hdfk]
  have hraw_post : ∀ t, t ∈ m₁.keys → m₁.post t = postGet m₁ t := by
    intro t ht
    rw [postGet_pos ht]
  have hraw_df : ∀ t, t ∈ m₁.keys → m₁.df t = dfGet m₁ t := by
    intro t ht
    rw [dfGet_pos (by rw [hdfkeys1]; exact ht)]
  have hdfm : ∀ t, t ∈ m.keys → 1 ≤ dfGet m t := by
    intro t ht
    have h2 := (hInv t ht).2
    have hc : 0 < (m.post t).card := Finset.card_pos.mpr (hne t ht)
    rw [dfGet_pos (hInv t ht).1, h2]
    exact_mod_cast hc
  have hdfnot : ∀ t, t ∉ m.keys → dfGet m t = 0 := by
    intro t ht
    exact dfGet_neg (by rw [hdfk]; exact ht)
  have hmem_post : ∀ t, t ∈ m₁.keys → (doc_id ∈ m₁.post t ↔ t ∈ tokens) := by
    intro t ht
    rw [hraw_post t ht, hp t]
    by_cases hmem : t ∈ tokens
    · simp [hmem]
    · simp [hmem, hfresh t]
  have hdead : ∀ t, t ∈ m₁.keys →
      ((doc_id ∈ m₁.post t ∧ m₁.df t - 1 = 0) ↔ (t ∈ tokens ∧ t ∉ m.keys)) := by
    intro t ht
    constructor
    · rintro ⟨h1, h2⟩
      have htok := (hmem_post t ht).mp h1
      refine ⟨htok, fun hmk => ?_⟩
      rw [hraw_df t ht, hdf t, if_pos htok] at h2
      have := hdfm t hmk
      omega
    · rintro ⟨htok, hmk⟩
      refine ⟨(hmem_post t ht).mpr htok, ?_⟩
      rw [hraw_df t ht, hdf t, if_pos htok, hdfnot t hmk]
      norm_num
  have hkeys2 : (removeDocument m₁ doc_id).keys = m.keys := by
    simp only [removeDocument]
    ext t
    rw [Finset.mem_filter]
    constructor
    · rintro ⟨ht, hcond⟩
      rcases (hkeys1 t).mp ht with h1 | h1
      · exact h1
      · by_contra hmk
        exact hcond ((hdead t ht).mpr ⟨h1, hmk⟩)
    · intro hmk
      have ht : t ∈ m₁.keys := (hkeys1 t).mpr (Or.inl hmk)
      exact ⟨ht, fun hc => ((hdead t ht).mp hc).2 hmk⟩
  have hdfkeys2 : (removeDocument m₁ doc_id).dfKeys = m.dfKeys := by
    simp only [removeDocument]
    ext t
    rw [Finset.mem_filter, hdfk]
    constructor
    · rintro ⟨ht, hcond⟩
      have ht1 : t ∈ m₁.keys := by rw [← hdfkeys1]; exact ht
      rcases (hkeys1 t).mp ht1 with h1 | h1
      · exact h1
      · by_contra hmk
        have hd := (hdead t ht1).mpr ⟨h1, hmk⟩
        exact hcond ⟨ht1, hd.1, hd.2⟩
    · intro hmk
      have ht1 : t ∈ m₁.keys := (hkeys1 t).mpr (Or.inl hmk)
      refine ⟨by rw [hdfkeys1]; exact ht1, fun hc => ?_⟩
      exact ((hdead t hc.1).mp ⟨hc.2.1, hc.2.2⟩).2 hmk
  refine ⟨hkeys2, ?_, hdfkeys2, ?_⟩
  · intro t
    by_cases hmk : t ∈ m.keys
    · have ht1 : t ∈ m₁.keys := (hkeys1 t).mpr (Or.inl hmk)
      have ht2 : t ∈ (removeDocument m₁ doc_id).keys := by rw [hkeys2]; exact hmk
      rw [postGet_pos ht2, postGet_pos hmk]
      simp only [removeDocument]
      by_cases htok : t ∈ tokens
      · rw [if_pos ⟨ht1, (hmem_post t ht1).mpr htok⟩, hraw_post t ht1, hp t,
          if_pos htok, Finset.erase_insert (hfresh t), postGet_pos hmk]
      · rw [if_neg (fun hc => htok ((hmem_post t ht1).mp hc.2)),
          hraw_post t ht1, hp t, if_neg htok, postGet_pos hmk]
    · have ht2 : t ∉ (removeDocument m₁ doc_id).keys := by rw [hkeys2]; exact hmk
      rw [postGet_neg ht2, postGet_neg hmk]
  · intro t
    by_cases hmk : t ∈ m.keys
    · have ht1 : t ∈ m₁.keys := (hkeys1 t).mpr (Or.inl hmk)
      have ht2 : t ∈ (removeDocument m₁ doc_id).dfKeys := by
        rw [hdfkeys2, hdfk]; exact hmk
      rw [dfGet_pos ht2, dfGet_pos (by rw [hdfk]; exact hmk)]
      simp only [removeDocument]
      by_cases htok : t ∈ tokens
      · rw [if_pos ⟨ht1, (hmem_post t ht1).mpr htok⟩, hraw_df t ht1, hdf t,
          if_pos htok, dfGet_pos (by rw [hdfk]; exact hmk)]
        ring
      · rw [if_neg (fun hc => htok ((hmem_post t ht1).mp hc.2)),
          hraw_df t ht1, hdf t, if_neg htok, dfGet_pos (by rw [hdfk]; exact hmk)]
    · have ht2 : t ∉ (removeDocument m₁ doc_id).dfKeys := by
        rw [hdfkeys2, hdfk]; exact hmk
      rw [dfGet_neg ht2, dfGet_neg (by rw [hdfk]; exact hmk)]

theorem c7_add_remove_restore_witness :
    ∃ m₁, addDocument (⟨{"a"}, fun _ => {1}, {"a"}, fun _ => 1, true⟩ : InvIndex)
        2 ["a", "b"] = .ok m₁ ∧
      (removeDocument m₁ 2).keys =
        (⟨{"a"}, fun _ => {1}, {"a"}, fun _ => 1, true⟩ : InvIndex).keys ∧
      (∀ t, postGet (removeDocument m₁ 2) t =
        postGet (⟨{"a"}, fun _ => {1}, {"a"}, fun _ => 1, true⟩ : InvIndex) t) := by
  refine ⟨_, rfl, ?_⟩
  have h := c7_add_remove_restore
    (⟨{"a"}, fun _ => {1}, {"a"}, fun _ => 1, true⟩ : InvIndex) 2 ["a", "b"] _
    (by decide) rfl (by decide) ?hfresh rfl
  · exact ⟨h.1, h.2.1⟩
  · intro t
    simp only [postGet]
    split <;> decide

theorem c7_add_remove_restore_counterexample :
    ∃ m₁, addDocument (⟨{"a"}, fun _ => {1}, {"a"}, fun _ => 1, true⟩ : InvIndex)
        1 ["b"] = .ok m₁ ∧
      (removeDocument m₁ 1).keys ≠
        (⟨{"a"}, fun _ => {1}, {"a"}, fun _ => 1, true⟩ : InvIndex).keys := by
  refine ⟨_, rfl, by decide⟩

/-! ## Plain dict after load (C10) and persistence round-trip (C4) -/

theorem addTokens_error_of_missing {doc_id : ℕ} :
    ∀ (ts : List String) (m : InvIndex) (t : String), m.isDefault = false →
      t ∈ ts → t ∉ m.keys → addTokens doc_id m ts = .error () := by
  intro ts
  induction ts with
  | nil => intro m t _ hmem _; exact absurd hmem (List.not_mem_nil t)
  | cons u ts ih =>
    intro m t hdef hmem hkeys
    rw [addTokens]
    cases hstep : addToken doc_id m u with
    | error e => cases e; rfl
    | ok m₁ =>
      have hu : u ∈ m.keys := addToken_ok_mem hstep hdef
      obtain ⟨hk, _, hd, _, _⟩ := addToken_ok_char hstep
      have hkeys1 : m₁.keys = m.keys := by rw [hk, Finset.insert_eq_self.mpr hu]
      have htmem : t ∈ ts := by
        rcases List.mem_cons.mp hmem with h1 | h1
        · exact absurd (h1 ▸ hu) hkeys
        · exact h1
      exact ih m₁ t (by rw [hd]; exact hdef) htmem (by rw [hkeys1]; exact hkeys)

theorem addTokens_ok_of_default {doc_id : ℕ} :
    ∀ (ts : List String) (m : InvIndex), m.isDefault = true →
      ∃ m', addTokens doc_id m ts = .ok m' := by
  intro ts
  induction ts with
  | nil => intro m _; exact ⟨m, rfl⟩
  | cons u ts ih =>
    intro m hdef
    obtain ⟨m₁, hstep⟩ := addToken_ok_default doc_id u hdef
    obtain ⟨_, _, hd, _, _⟩ := addToken_ok_char hstep
    obtain ⟨m', hrest⟩ := ih m₁ (by rw [hd]; exact hdef)
    exact ⟨m', by rw [addTokens, hstep]; exact hrest⟩

theorem buildDocs_isDefault :
    ∀ (docs : List (ℕ × List String)) (m m' : InvIndex),
      buildDocs m docs = .ok m' → m'.isDefault = m.isDefault := by
  intro docs
  induction docs with
  | nil =>
    intro m m' h
    injection h with h2
    subst h2
    rfl
  | cons d ds ih =>
    intro m m' h
    rw [buildDocs] at h
    cases hstep : addDocument m d.1 d.2 with
    | error e => rw [hstep] at h; exact absurd h (by simp)
    | ok m₁ =>
      rw [hstep] at h
      obtain ⟨_, _, hd, _, _⟩ := addDocument_ok_char hstep
      rw [ih m₁ m' h, hd]

/-- C10: after `load_index` the term→postings dict is a plain dict, so
`add_document` raises `KeyError` as soon as the tokens contain a term that is
not already a key of the loaded index, whereas on a defaultdict-backed index
(as produced by `__init__` / kept by `build_index`) `add_document` always
succeeds. -/
theorem c10_loaded_add_keyerror :
    (∀ (file : Finset String × (String → List ℕ)) (doc_id : ℕ)
        (tokens : List String) (t : String), t ∈ tokens → t ∉ file.1 →
      addDocument (loadIndex file) doc_id tokens = .error ()) ∧
    (∀ (m : InvIndex) (doc_id : ℕ) (tokens : List String), m.isDefault = true →
      ∃ m', addDocument m doc_id tokens = .ok m') ∧
    emptyIndex.isDefault = true ∧
    (∀ (m : InvIndex) (docs : List (ℕ × List String)) (m' : InvIndex),
      buildIndex m docs = .ok m' → m'.isDefault = m.isDefault) ∧
    (∀ file, (loadIndex file).isDefault = false) := by
  refine ⟨?_, ?_, rfl, ?_, fun _ => rfl⟩
  · intro file doc_id tokens t hmem hkeys
    exact addTokens_error_of_missing tokens.dedup (loadIndex file) t rfl
      (List.mem_dedup.mpr hmem) hkeys
  · intro m doc_id tokens hdef
    exact addTokens_ok_of_default tokens.dedup m hdef
  · intro m docs m' h
    exact buildDocs_isDefault docs
      { keys := ∅, post := fun _ => ∅, dfKeys := ∅, df := fun _ => 0,
        isDefault := m.isDefault } m' h

theorem c10_loaded_add_keyerror_witness :
    addDocument (loadIndex ({"a"}, fun _ => [1])) 2 ["b"] = .error () ∧
    ∃ m', addDocument emptyIndex 2 ["b"] = .ok m' :=
  ⟨c10_loaded_add_keyerror.1 ({"a"}, fun _ => [1]) 2 ["b"] "b" (by decide) (by decide),
   c10_loaded_add_keyerror.2.1 emptyIndex 2 ["b"] rfl⟩

/-- C4: saving an index and loading the file back yields identical posting
sets for every term, and a doc-frequency equal to the length of the stored
posting list for that term — which is the cardinality of the posting set —
recomputed from the postings (the file stores no doc-frequency field). -/
theorem c4_save_load_roundtrip (m : InvIndex) (t : String) :
    postGet (loadIndex (saveIndex m)) t = postGet m t ∧
    dfGet (loadIndex (saveIndex m)) t = (((saveIndex m).2 t).length : ℤ) ∧
    dfGet (loadIndex (saveIndex m)) t = ((postGet m t).card : ℤ) := by
  by_cases ht : t ∈ m.keys
  · refine ⟨?_, ?_, ?_⟩
    · rw [postGet_pos (show t ∈ (loadIndex (saveIndex m)).keys from ht)]
      exact Finset.sort_toFinset _ _
    · rw [dfGet_pos (show t ∈ (loadIndex (saveIndex m)).dfKeys from ht)]
      rfl
    · rw [dfGet_pos (show t ∈ (loadIndex (saveIndex m)).dfKeys from ht)]
      show (((postGet m t).sort (· ≤ ·)).length : ℤ) = ((postGet m t).card : ℤ)
      rw [Finset.length_sort]
  · refine ⟨?_, ?_, ?_⟩
    · rw [postGet_neg (show t ∉ (loadIndex (saveIndex m)).keys from ht),
        postGet_neg ht]
    · rw [dfGet_neg (show t ∉ (loadIndex (saveIndex m)).dfKeys from ht)]
      show (0 : ℤ) = (((postGet m t).sort (· ≤ ·)).length : ℤ)
      rw [Finset.length_sort, postGet_neg ht]
      simp
    · rw [dfGet_neg (show t ∉ (loadIndex (saveIndex m)).dfKeys from ht),
        postGet_neg ht]
      simp

/-! ## Parallel build determinism (C9) -/

theorem chunkGo_flatten (k : ℕ) (hk : 1 ≤ k) :
    ∀ (fuel : ℕ) (l : List (ℕ × String)), l.length ≤ fuel →
      (chunkGo k fuel l).flatten = l := by
  intro fuel
  induction fuel with
  | zero =>
    intro l hl
    have hnil : l = [] := List.eq_nil_of_length_eq_zero (Nat.le_zero.mp hl)
    subst hnil
    rfl
  | succ fuel ih =>
    intro l hl
    cases l with
    | nil => rfl
    | cons x xs =>
      rw [chunkGo, List.flatten_cons, ih ((x :: xs).drop k) ?_,
        List.take_append_drop]
      rw [List.length_drop]
      simp only [List.length_cons] at hl ⊢
      omega

theorem chunkBatches_flatten (k : ℕ) (hk : 1 ≤ k) (l : List (ℕ × String)) :
    (chunkBatches k l).flatten = l :=
  chunkGo_flatten k hk l.length l le_rfl

/-- C9: the index produced by `build_index_parallel` does not depend on the
worker count — any two worker counts give the same result, and both equal
the sequential build over the same documents normalized by the same
tokenizer. -/
theorem c9_parallel_build_deterministic (documents : List (ℕ × String))
    (tok : String → List String) (w₁ w₂ : ℕ) :
    buildIndexParallel documents w₁ tok = buildIndexParallel documents w₂ tok ∧
    buildIndexParallel documents w₁ tok =
      buildIndex emptyIndex (documents.map fun d => (d.1, tok d.2)) := by
  have key : ∀ w : ℕ, buildIndexParallel documents w tok =
      buildIndex emptyIndex (documents.map fun d => (d.1, tok d.2)) := by
    intro w
    have hb : processDocumentBatch tok = List.map fun d => (d.1, tok d.2) := rfl
    show buildIndex emptyIndex
        (((chunkBatches (max 1 (documents.length / w)) documents).map
          (processDocumentBatch tok)).flatten) = _
    rw [hb, ← List.map_flatten,
      chunkBatches_flatten _ (le_max_left 1 (documents.length / w)) documents]
  exact ⟨(key w₁).trans (key w₂).symm, key w₁⟩

/-! ## Language-model smoothing floor (C2) -/

theorem lmTf_eq_zero_of_absent (m : ModeleLangue) (doc_id : ℕ) (t : String)
    (habs : lmCollectionTf m t = 0) : lmTf m doc_id t = 0 := by
  have hall : ∀ d ∈ m.documents, d.2.count t = 0 := by
    intro d hd
    have := (List.sum_eq_zero_iff.mp habs) (d.2.count t)
      (List.mem_map_of_mem (fun d => d.2.count t) hd)
    exact this
  refine List.sum_eq_zero ?_
  intro x hx
  obtain ⟨d, hd, hdx⟩ := List.mem_map.mp hx
  exact hdx ▸ hall d (List.mem_of_mem_filter hd)

/-- C2 (amended): for a query term absent from the entire collection, the
smoothed probability is `(1-λ) * (1 / max(collection_length, 1))` — positive
whenever `λ < 1`, because `collection_prob.get` falls back to
`1 / max(collection_length, 1)`, not 0 — so the term's contribution is the
logarithm of that value, not the `log10(1e-10)` floor; the floor branch is
reached only when the smoothed probability is exactly 0 (e.g. `λ = 1`).  No
error and no `-infinity` is produced. -/
theorem c2_lm_absent_term_contribution (m : ModeleLangue) (doc_id : ℕ) (t : String)
    (habs : lmCollectionTf m t = 0) (h0 : 0 ≤ m.lambda_param)
    (h1 : m.lambda_param < 1) :
    0 < lmTermProbability m doc_id t ∧
    lmTermContribution m doc_id t =
      Real.logb 10
        (((1 - m.lambda_param) * (1 / ((max (lmCollectionLength m) 1 : ℕ) : ℚ)) : ℚ) : ℝ) := by
  have hprob : lmTermProbability m doc_id t =
      (1 - m.lambda_param) * (1 / ((max (lmCollectionLength m) 1 : ℕ) : ℚ)) := by
    rw [lmTermProbability]
    have htf := lmTf_eq_zero_of_absent m doc_id t habs
    have hdoc : (if lmDocLength m doc_id = 0 then (0 : ℚ)
        else (lmTf m doc_id t : ℚ) / (lmDocLength m doc_id : ℚ)) = 0 := by
      split
      · rfl
      · rw [htf]
        simp
    rw [hdoc, lmCollectionProbGet, if_neg (by omega)]
    ring
  have hmax : (0 : ℚ) < ((max (lmCollectionLength m) 1 : ℕ) : ℚ) := by
    have : 1 ≤ max (lmCollectionLength m) 1 := le_max_right _ _
    exact_mod_cast Nat.lt_of_lt_of_le Nat.zero_lt_one this
  have hpos : 0 < lmTermProbability m doc_id t := by
    rw [hprob]
    have h2 : (0 : ℚ) < 1 - m.lambda_param := by linarith
    positivity
  refine ⟨hpos, ?_⟩
  rw [lmTermContribution, if_pos hpos, hprob]

theorem c2_lm_absent_term_contribution_witness :
    0 < lmTermProbability ⟨[(1, ["a"])], 1 / 2⟩ 1 "b" ∧
    lmTermContribution ⟨[(1, ["a"])], 1 / 2⟩ 1 "b" =
      Real.logb 10
        (((1 - (1 / 2 : ℚ)) *
          (1 / ((max (lmCollectionLength ⟨[(1, ["a"])], 1 / 2⟩) 1 : ℕ) : ℚ)) : ℚ) : ℝ) :=
  c2_lm_absent_term_contribution ⟨[(1, ["a"])], 1 / 2⟩ 1 "b" (by decide)
    (by norm_num) (by norm_num)

theorem c2_lm_absent_term_contribution_counterexample :
    lmCollectionTf ⟨[(1, ["a"])], 1 / 2⟩ "b" = 0 ∧
    (1, ["a"]) ∈ (⟨[(1, ["a"])], 1 / 2⟩ : ModeleLangue).documents ∧
    lmTermContribution ⟨[(1, ["a"])], 1 / 2⟩ 1 "b" ≠
      Real.logb 10 ((1 : ℝ) / 10 ^ 10) := by
  refine ⟨by decide, by decide, ?_⟩
  have hprob : lmTermProbability ⟨[(1, ["a"])], 1 / 2⟩ 1 "b" = 1 / 2 := by
    norm_num [lmTermProbability, lmDocLength, lmTf, lmCollectionProbGet,
      lmCollectionTf, lmCollectionLength, List.count_cons,
      show ("a" : String) ≠ "b" from by decide]
  have hval : lmTermContribution ⟨[(1, ["a"])], 1 / 2⟩ 1 "b" =
      Real.logb 10 ((1 : ℝ) / 2) := by
    rw [lmTermContribution, hprob, if_pos (by norm_num)]
    norm_num
  rw [hval]
  have hlt : Real.logb 10 ((1 : ℝ) / 10 ^ 10) < Real.logb 10 ((1 : ℝ) / 2) :=
    Real.logb_lt_logb (by norm_num) (by norm_num) (by norm_num)
  intro hc
  rw [hc] at hlt
  exact lt_irrefl _ hlt

/-! ## BM25 monotonicity in term frequency (C3) -/

theorem bm25Idf_nonneg (N df : ℕ) (h : 2 * df ≤ N) : 0 ≤ bm25Idf N df := by
  rw [bm25Idf]
  split
  · exact le_refl 0
  · apply Real.logb_nonneg (by norm_num : (1 : ℝ) < 10)
    have hd : (0 : ℝ) < (df : ℝ) + 1 / 2 := by positivity
    rw [le_div_iff hd]
    have hc : 2 * (df : ℝ) ≤ (N : ℝ) := by exact_mod_cast h
    linarith

/-- C3 (amended): the per-term BM25 score
`idf * tf*(k1+1) / (tf + k1*(1 - b + b*|d|/max(avgdl,1)))` is monotone
non-decreasing in the term frequency provided the term's IDF is
non-negative, which holds whenever the term occurs in at most half the
collection (`2*df ≤ N`; the code clamps the IDF only at `df = 0`).  The
final conjunct identifies this formula with
`ModeleProbabiliste._compute_bm25_score` on a model instance.  For a term
with `df > N/2` the IDF is negative and a larger tf strictly lowers the
score (see the counterexample). -/
theorem c3_bm25_tf_monotone :
    (∀ (N df : ℕ) (k1 b avgdl : ℝ) (doc_length tf₁ tf₂ : ℕ),
      0 < k1 → 0 ≤ b → b ≤ 1 → 2 * df ≤ N → tf₁ ≤ tf₂ →
      bm25ScoreAt N df k1 b avgdl doc_length tf₁ ≤
        bm25ScoreAt N df k1 b avgdl doc_length tf₂) ∧
    (∀ (m : ModeleProbabiliste) (doc_id : ℕ) (t : String),
      bmComputeScore m doc_id t =
        bm25ScoreAt (bmNumDocs m) (bmDf m t) m.k1 m.b (bmAvgDocLength m)
          (bmDocLength m doc_id) (bmTf m doc_id t)) := by
  refine ⟨?_, fun m doc_id t => rfl⟩
  intro N df k1 b avgdl doc_length tf₁ tf₂ hk1 hb0 hb1 hdf htf
  have hidf : 0 ≤ bm25Idf N df := bm25Idf_nonneg N df hdf
  rw [bm25ScoreAt, bm25ScoreAt]
  set K := k1 * (1 - b + b * ((doc_length : ℝ) / max avgdl 1)) with hK
  have hKnn : 0 ≤ K := by
    rw [hK]
    apply mul_nonneg hk1.le
    have h1 : (0 : ℝ) ≤ 1 - b := by linarith
    have h2 : (0 : ℝ) ≤ (doc_length : ℝ) / max avgdl 1 := by
      apply div_nonneg (Nat.cast_nonneg _)
      have := le_max_right avgdl 1
      linarith
    have h3 : (0 : ℝ) ≤ b * ((doc_length : ℝ) / max avgdl 1) := mul_nonneg hb0 h2
    linarith
  by_cases h1 : tf₁ = 0
  · rw [if_pos h1]
    by_cases h2 : tf₂ = 0
    · rw [if_pos h2]
    · rw [if_neg h2]
      have htf2 : (1 : ℝ) ≤ (tf₂ : ℝ) := by
        exact_mod_cast Nat.one_le_iff_ne_zero.mpr h2
      have hden : (0 : ℝ) < (tf₂ : ℝ) + K := by linarith
      apply div_nonneg _ hden.le
      apply mul_nonneg hidf
      have : (0 : ℝ) ≤ (tf₂ : ℝ) := by linarith
      nlinarith
  · rw [if_neg h1]
    have h2 : tf₂ ≠ 0 := by omega
    rw [if_neg h2]
    have ht1 : (1 : ℝ) ≤ (tf₁ : ℝ) := by
      exact_mod_cast Nat.one_le_iff_ne_zero.mpr h1
    have ht2r : (tf₁ : ℝ) ≤ (tf₂ : ℝ) := by exact_mod_cast htf
    have hd1 : (0 : ℝ) < (tf₁ : ℝ) + K := by linarith
    have hd2 : (0 : ℝ) < (tf₂ : ℝ) + K := by linarith
    have hfac : ((tf₁ : ℝ) * (k1 + 1)) / ((tf₁ : ℝ) + K) ≤
        ((tf₂ : ℝ) * (k1 + 1)) / ((tf₂ : ℝ) + K) := by
      rw [div_le_div_iff hd1 hd2]
      have hk1p : (0 : ℝ) ≤ k1 + 1 := by linarith
      nlinarith [mul_nonneg (mul_nonneg hk1p hKnn) (sub_nonneg.mpr ht2r)]
    calc bm25Idf N df * ((tf₁ : ℝ) * (k1 + 1)) / ((tf₁ : ℝ) + K)
        = bm25Idf N df * (((tf₁ : ℝ) * (k1 + 1)) / ((tf₁ : ℝ) + K)) := by ring
      _ ≤ bm25Idf N df * (((tf₂ : ℝ) * (k1 + 1)) / ((tf₂ : ℝ) + K)) :=
          mul_le_mul_of_nonneg_left hfac hidf
      _ = bm25Idf N df * ((tf₂ : ℝ) * (k1 + 1)) / ((tf₂ : ℝ) + K) := by ring

theorem c3_bm25_tf_monotone_witness :
    bm25ScoreAt 2 1 (3 / 2) (3 / 4) 1 1 1 ≤ bm25ScoreAt 2 1 (3 / 2) (3 / 4) 1 1 2 :=
  c3_bm25_tf_monotone.1 2 1 (3 / 2) (3 / 4) 1 1 1 2 (by norm_num) (by norm_num)
    (by norm_num) (by norm_num) (by norm_num)

/-- C3 counterexample: one document (N = 1) containing the term (df = 1),
default parameters k1 = 1.5, b = 0.75, document length 2, avgdl = 2: the IDF
is `log10((1-1+0.5)/1.5) = log10(1/3) < 0`, and raising tf from 1 to 2
strictly lowers the per-term score. -/
theorem c3_bm25_tf_monotone_counterexample :
    bm25ScoreAt 1 1 (3 / 2) (3 / 4) 2 2 2 < bm25ScoreAt 1 1 (3 / 2) (3 / 4) 2 2 1 := by
  have hidf : bm25Idf 1 1 < 0 := by
    rw [bm25Idf, if_neg (by norm_num)]
    apply Real.logb_neg (by norm_num) <;> norm_num
  rw [bm25ScoreAt, bm25ScoreAt, if_neg (by norm_num), if_neg (by norm_num)]
  have hmax : max (2 : ℝ) 1 = 2 := by norm_num
  rw [hmax]
  push_cast
  ring_nf
  nlinarith [hidf]

/-! ## Ranking order of the search results (C8) -/

/-- Sorted by non-increasing score (descending order with possible ties). -/
def SortedByScoreDesc (l : List (ℕ × ℝ)) : Prop :=
  List.Sorted (fun a b : ℕ × ℝ => b.2 ≤ a.2) l

theorem pySortDesc_sorted (l : List (ℕ × ℝ)) : SortedByScoreDesc (pySortDesc l) := by
  haveI : IsTotal (ℕ × ℝ) (fun a b => b.2 ≤ a.2) := ⟨fun a b => le_total b.2 a.2⟩
  haveI : IsTrans (ℕ × ℝ) (fun a b => b.2 ≤ a.2) :=
    ⟨fun a b c hab hbc => le_trans hbc hab⟩
  unfold pySortDesc SortedByScoreDesc
  exact List.sorted_insertionSort _ l

theorem sortedByScoreDesc_take {l : List (ℕ × ℝ)} (k : ℕ)
    (h : SortedByScoreDesc l) : SortedByScoreDesc (l.take k) :=
  List.Pairwise.sublist (List.take_sublist _ _) h

/-- C8 (amended): for each of the three ranking models every `search` result
sequence is sorted by non-increasing score.  Equal scores keep the stable
sort's candidate enumeration order (documents-list order for the vector and
language models, posting-iteration order for BM25), which need not be
ascending doc_id (see the counterexample). -/
theorem c8_search_sorted_desc :
    (∀ (m : ModeleLangue) (query_terms : List String) (top_k : ℕ),
      SortedByScoreDesc (lmSearch m query_terms top_k)) ∧
    (∀ (m : ModeleProbabiliste) (query_terms : List String) (top_k : ℕ),
      SortedByScoreDesc (bmSearch m query_terms top_k)) ∧
    (∀ (m : ModeleVectoriel) (query_terms : List String) (top_k : ℕ),
      SortedByScoreDesc (vecSearch m query_terms top_k)) := by
  refine ⟨?_, ?_, ?_⟩
  · intro m q k
    rw [lmSearch]
    split
    · exact List.sorted_nil
    · exact sortedByScoreDesc_take k (pySortDesc_sorted _)
  · intro m q k
    rw [bmSearch]
    split
    · exact List.sorted_nil
    · exact sortedByScoreDesc_take k (pySortDesc_sorted _)
  · intro m q k
    rw [vecSearch]
    split
    · exact List.sorted_nil
    · exact sortedByScoreDesc_take k (pySortDesc_sorted _)

/-- C8 counterexample: two documents with ids 2 and 1 (in that list order),
both equal to `["a"]`, queried with `"a"`: both scores are `log10(1) = 0`,
and the returned order is `[2, 1]` — the enumeration order — not ascending
doc_id. -/
theorem c8_search_sorted_desc_counterexample :
    lmSearch ⟨[(2, ["a"]), (1, ["a"])], 1 / 2⟩ ["a"] 10 = [(2, 0), (1, 0)] ∧
    ¬ (([(2, (0 : ℝ)), (1, 0)].map Prod.fst).Sorted (· ≤ ·)) := by
  refine ⟨?_, by decide⟩
  have hp2 : lmTermProbability ⟨[(2, ["a"]), (1, ["a"])], 1 / 2⟩ 2 "a" = 1 := by
    norm_num [lmTermProbability, lmDocLength, lmTf, lmCollectionProbGet,
      lmCollectionTf, lmCollectionLength, List.count_cons, List.find?]
  have hp1 : lmTermProbability ⟨[(2, ["a"]), (1, ["a"])], 1 / 2⟩ 1 "a" = 1 := by
    norm_num [lmTermProbability, lmDocLength, lmTf, lmCollectionProbGet,
      lmCollectionTf, lmCollectionLength, List.count_cons, List.find?]
  have hc2 : lmTermContribution ⟨[(2, ["a"]), (1, ["a"])], 1 / 2⟩ 2 "a" = 0 := by
    rw [lmTermContribution, hp2, if_pos (by norm_num)]
    norm_num
  have hc1 : lmTermContribution ⟨[(2, ["a"]), (1, ["a"])], 1 / 2⟩ 1 "a" = 0 := by
    rw [lmTermContribution, hp1, if_pos (by norm_num)]
    norm_num
  rw [lmSearch, if_neg (by simp)]
  have hmap : ((⟨[(2, ["a"]), (1, ["a"])], 1 / 2⟩ : ModeleLangue).documents.map
      fun d => (d.1, (["a"].map fun t =>
        lmTermContribution ⟨[(2, ["a"]), (1, ["a"])], 1 / 2⟩ d.1 t).sum)) =
      [(2, (0 : ℝ)), (1, 0)] := by
    simp only [List.map_cons, List.map_nil, List.sum_cons, List.sum_nil, add_zero]
    rw [hc2, hc1]
  rw [hmap]
  have hsort : pySortDesc [(2, (0 : ℝ)), (1, 0)] = [(2, 0), (1, 0)] := by
    simp [pySortDesc, List.insertionSort, List.orderedInsert]
  rw [hsort]
  rfl
